import Mathlib

/-!
Verification of the ingest-and-query core of the Bolsa-de-caracas repository.

The repository contains several near-duplicate server iterations. The ones
relevant here:

* `server.js` (Postgres): market-hours gate (Mon-Fri, 9:00 to 12:59 Caracas),
  transactional insert + prune, `GET /api/bolsa/actual` filtering on the
  table-wide maximum `fecha_registro`, and a history route that down-samples
  to one row per calendar day when `days != 1`.
* `part_005` (Postgres + WebSocket): gate open until 13:09, transactional
  insert + prune with a company-name remap, `getLatestMarketData` using
  `SELECT DISTINCT ON (symbol) ... ORDER BY symbol, fecha_registro DESC`,
  and a history route that never down-samples.
* `part_002` (sqlite3): no gate, inserts with no surrounding transaction.

Timestamps are modelled as integers (seconds since an epoch aligned with
midnight), so the SQL `DATE(fecha_registro)` truncation is floor division
by 86400, and an interval of `d days` is `d * 86400`. Floating-point columns
(`precio`, `monto_efectivo`) are carried as rationals produced by an
abstract parse function `pf`, since no property here inspects them.
An SQL `ORDER BY` is modelled as a deterministic (insertion) sort of the
physical row list: the engine returns some ordering consistent with the
sort key, and notably does not order rows that tie on the key.
-/

/-- One row of the `precios` table, as created by `initDB`. -/
structure Row where
  id : Nat
  symbol : String
  nombre : String
  precio : Rat
  var_abs : String
  var_rel : String
  volumen : String
  monto_efectivo : Rat
  hora : String
  icon : String
  fecha_registro : Int
deriving DecidableEq, Repr

/-- One scraped record from the upstream JSON array. -/
structure Item where
  COD_SIMB : String
  DESC_SIMB : String
  PRECIO : String
  VAR_ABS : String
  VAR_REL : String
  VOLUMEN : String
  MONTO_EFECTIVO : String
  HORA : String
  ICON : String
deriving DecidableEq, Repr

/-- Seconds per calendar day; timestamps are epoch-based seconds. -/
def secPerDay : Int := 86400

/-- SQL `DATE(ts)`: truncation of a timestamp to its calendar day.
Integer division on `Int` is Euclidean, which is floor division for the
positive divisor 86400. -/
def dateOf (ts : Int) : Int := ts / secPerDay

/-- Insert a row into a list sorted by the boolean relation `le`. -/
def insertSorted (le : Row → Row → Bool) (r : Row) : List Row → List Row
  | [] => [r]
  | x :: xs => if le r x then r :: x :: xs else x :: insertSorted le r xs

/-- Deterministic model of SQL `ORDER BY` with sort relation `le`:
insertion sort of the physical row list (stable for ties). -/
def sortRows (le : Row → Row → Bool) : List Row → List Row
  | [] => []
  | r :: rs => insertSorted le r (sortRows le rs)

/-- The sort key `ORDER BY key ASC, fecha_registro DESC` used by the
`DISTINCT ON` queries, as a boolean total preorder on rows. -/
def keyFechaLe {K : Type} [LinearOrder K] (key : Row → K) (a b : Row) : Bool :=
  decide (key a < key b) ||
    (decide (key a = key b) && decide (b.fecha_registro ≤ a.fecha_registro))

/-- Sort key `ORDER BY fecha_registro ASC`. -/
def fechaAscLe (a b : Row) : Bool := decide (a.fecha_registro ≤ b.fecha_registro)

/-- Sort key `ORDER BY fecha_registro DESC`. -/
def fechaDescLe (a b : Row) : Bool := decide (b.fecha_registro ≤ a.fecha_registro)

/-- Lexicographic comparison of character lists, the collation model for
`ORDER BY symbol` (Postgres collations are installation-dependent; any
total order groups equal symbols together, which is all the queries
rely on). -/
def charListLt : List Char → List Char → Bool
  | [], [] => false
  | [], _ :: _ => true
  | _ :: _, [] => false
  | a :: as, b :: bs =>
    if a < b then true else if b < a then false else charListLt as bs

/-- String comparison through the character lists. -/
def strLtB (a b : String) : Bool := charListLt a.data b.data

/-- The sort key `ORDER BY symbol ASC, fecha_registro DESC` of the
`DISTINCT ON (symbol)` query. -/
def symLe (a b : Row) : Bool :=
  strLtB a.symbol b.symbol ||
    (a.symbol == b.symbol && decide (b.fecha_registro ≤ a.fecha_registro))

/-- Helper for `distinctOn`: keep the first row of each key, skipping keys
already seen. -/
def distinctOnAux {K : Type} [DecidableEq K] (key : Row → K) (seen : List K) :
    List Row → List Row
  | [] => []
  | r :: rs =>
    if key r ∈ seen then distinctOnAux key seen rs
    else r :: distinctOnAux key (key r :: seen) rs

/-- SQL `DISTINCT ON (key)`: from a (sorted) row list, keep the first row
carrying each distinct key. -/
def distinctOn {K : Type} [DecidableEq K] (key : Row → K) (l : List Row) : List Row :=
  distinctOnAux key [] l

/-- The company-name remap applied by `getLatestMarketData` in `part_005`:
`companyMap[row.nombre.trim()]` when present, otherwise the stored name.
The dictionary file `company_names` is not part of the sources, so the map
is a parameter. -/
def remapNombre (cmap : String → Option String) (r : Row) : Row :=
  { r with nombre := (cmap r.nombre.trim).getD r.nombre }

/-- `getLatestMarketData` of `part_005`:
`SELECT * FROM (SELECT DISTINCT ON (symbol) * FROM precios ORDER BY symbol,
fecha_registro DESC) sub ORDER BY fecha_registro DESC`, followed by the
in-process `nombre` remap. -/
def getLatestMarketData (cmap : String → Option String) (t : List Row) : List Row :=
  (sortRows fechaDescLe (distinctOn Row.symbol (sortRows symLe t))).map
    (remapNombre cmap)

/-- SQL `MAX(fecha_registro)` over the whole table. -/
def maxFechaAll (t : List Row) : Option Int := (t.map Row.fecha_registro).max?

/-- The `GET /api/bolsa/actual` query of `server.js` (also `part_001` to
`part_004`): `SELECT * FROM precios WHERE fecha_registro =
(SELECT MAX(fecha_registro) FROM precios)`. -/
def actualQuery (t : List Row) : List Row :=
  t.filter fun r => decide (maxFechaAll t = some r.fecha_registro)

/-- The `WHERE symbol = $1 AND fecha_registro >= NOW() - (d days)` filter
shared by all history queries. -/
def historialWindow (t : List Row) (sym : String) (d : Int) (now : Int) : List Row :=
  t.filter fun r => r.symbol == sym && decide (now - d * secPerDay ≤ r.fecha_registro)

/-- The `days == 1` branch of the `server.js` history route: every row of
the symbol in the last day, ascending by `fecha_registro`. -/
def historialIntraday (t : List Row) (sym : String) (now : Int) : List Row :=
  sortRows fechaAscLe (historialWindow t sym 1 now)

/-- The `days != 1` branch of the `server.js` history route:
`SELECT * FROM (SELECT DISTINCT ON (DATE(fecha_registro)) ... ORDER BY
DATE(fecha_registro) ASC, fecha_registro DESC) sub ORDER BY fecha_registro
ASC`. -/
def historialMultiDay (t : List Row) (sym : String) (d : Int) (now : Int) : List Row :=
  sortRows fechaAscLe
    (distinctOn (fun r => dateOf r.fecha_registro)
      (sortRows (keyFechaLe fun r => dateOf r.fecha_registro)
        (historialWindow t sym d now)))

/-- Whitespace stripped by JS `parseInt` (the common ASCII subset plus
no-break space). -/
def isJsWhitespace (c : Char) : Bool :=
  c == ' ' || c == '\t' || c == '\n' || c == '\r' ||
    c == Char.ofNat 11 || c == Char.ofNat 12 || c == Char.ofNat 160

/-- Decimal digit value for `parseInt`. -/
def decDigit (c : Char) : Option Nat :=
  if c.isDigit then some (c.toNat - 48) else none

/-- Hexadecimal digit value for `parseInt` after a `0x` prefix. -/
def hexDigit (c : Char) : Option Nat :=
  if c.isDigit then some (c.toNat - 48)
  else if 97 ≤ c.toNat && c.toNat ≤ 102 then some (c.toNat - 87)
  else if 65 ≤ c.toNat && c.toNat ≤ 70 then some (c.toNat - 55)
  else none

/-- Digit accumulator of `parseInt`: consume valid digits, stop at the
first invalid character; `none` when no digit was consumed. -/
def parseDigits (base : Nat) (val : Char → Option Nat) :
    List Char → Option Nat → Option Nat
  | [], acc => acc
  | c :: cs, acc =>
    match val c with
    | none => acc
    | some v => parseDigits base val cs (some (acc.getD 0 * base + v))

/-- JS `parseInt(s)` with no radix argument: trim leading whitespace, an
optional sign, a `0x`/`0X` prefix selecting base 16, then the longest
digit prefix; `none` models `NaN`. -/
def jsParseInt (s : String) : Option Int :=
  let cs := s.data.dropWhile isJsWhitespace
  let signed : Int × List Char :=
    match cs with
    | '-' :: rest => (-1, rest)
    | '+' :: rest => (1, rest)
    | _ => (1, cs)
  let digits : Option Nat :=
    match signed.2 with
    | '0' :: 'x' :: rest => parseDigits 16 hexDigit rest none
    | '0' :: 'X' :: rest => parseDigits 16 hexDigit rest none
    | other => parseDigits 10 decDigit other none
  digits.map fun n => signed.1 * (n : Int)

/-- `const daysLimit = parseInt(days) || 1`: `NaN` and `0` (and JS `-0`)
are falsy, every other parsed integer passes through. -/
def daysLimit (s : String) : Int :=
  match jsParseInt s with
  | none => 1
  | some n => if n = 0 then 1 else n

/-- The `GET /api/bolsa/historial/:symbol/:days` route of `server.js`. -/
def historialRouteServerJs (t : List Row) (sym daysStr : String) (now : Int) :
    List Row :=
  let dl := daysLimit daysStr
  if dl = 1 then historialIntraday t sym now else historialMultiDay t sym dl now

/-- The `GET /api/bolsa/historial/:symbol/:days` route of `part_005` (and
`part_001`, `part_004`): all rows in the window, never down-sampled. -/
def historialRouteP5 (t : List Row) (sym daysStr : String) (now : Int) : List Row :=
  sortRows fechaAscLe (historialWindow t sym (daysLimit daysStr) now)

/-- Observable outcome of one ingestion cycle. -/
inductive CycleResult where
  | skipped
  | fetchFailed
  | writeFailed
  | success (inserted : Nat)
deriving DecidableEq, Repr

/-- The market-hours gate of `server.js` (and `part_001`, `part_003`) on
Caracas local time: closed on Sunday (0) and Saturday (6), before 9:00 and
from 13:00 on. -/
def marketClosedServerJs (day hour : Nat) : Bool :=
  day == 0 || day == 6 || hour < 9 || 13 ≤ hour

/-- The market-hours gate of `part_005`: closed on Sunday and Saturday,
before 9:00, after 13:59, and from 13:10 on. -/
def marketClosedP5 (day hour minute : Nat) : Bool :=
  day == 0 || day == 6 || hour < 9 || (13 < hour || (hour == 13 && 10 ≤ minute))

/-- Build the inserted row for one scraped item. `pf` abstracts JS
`parseFloat` for the two REAL columns; `fecha_registro` defaults to the
transaction timestamp `now` (all rows of one Postgres transaction share
it). -/
def itemToRow (pf : String → Rat) (now : Int) (rid : Nat) (it : Item) : Row :=
  { id := rid
    symbol := it.COD_SIMB
    nombre := it.DESC_SIMB
    precio := pf it.PRECIO
    var_abs := it.VAR_ABS
    var_rel := it.VAR_REL
    volumen := it.VOLUMEN
    monto_efectivo := pf it.MONTO_EFECTIVO
    hora := it.HORA
    icon := it.ICON
    fecha_registro := now }

/-- The batch of rows inserted for a scraped list, with sequential ids. -/
def insertedRows (pf : String → Rat) (now : Int) (nextId : Nat)
    (items : List Item) : List Row :=
  items.mapIdx fun i it => itemToRow pf now (nextId + i) it

/-- The retention prune of the Postgres variants:
`DELETE FROM precios WHERE fecha_registro <= NOW() - INTERVAL (cd days)`.
Kept are exactly the rows strictly newer than the cutoff. -/
def pruneServer (cd : Int) (now : Int) (t : List Row) : List Row :=
  t.filter fun r => decide (now - cd * secPerDay < r.fecha_registro)

/-- `fetchAndStore(force)` of `server.js`, as a pure state transformer.

* `day`/`hour` are the Caracas local components of the wall clock.
* `fetch` is the outcome of the upstream GET (`.error` for a network or
  non-2xx failure, `.ok items` for a parsed JSON array).
* `insertFault i` injects a write failure on the i-th `INSERT`;
  `pruneFault` injects one on the `DELETE`. The source wraps the batch in
  `BEGIN`/`COMMIT` and issues `ROLLBACK` on any error, so a cycle with any
  write fault leaves the table exactly as it was.
* On the success path the prune runs inside the same transaction, after
  the inserts. -/
def fetchAndStoreServerJs (pf : String → Rat) (cd : Int) (force : Bool)
    (day hour : Nat) (fetch : Except Unit (List Item))
    (insertFault : Nat → Bool) (pruneFault : Bool) (now : Int) (nextId : Nat)
    (t : List Row) : CycleResult × List Row :=
  if !force && marketClosedServerJs day hour then (.skipped, t)
  else
    match fetch with
    | .error _ => (.fetchFailed, t)
    | .ok items =>
      if (List.range items.length).any insertFault || pruneFault then
        (.writeFailed, t)
      else
        (.success items.length,
          pruneServer cd now (t ++ insertedRows pf now nextId items))

/-- `fetchAndStore(force)` of `part_005`: same transactional shape as
`server.js`, but with its wider market gate and the `companyMap` name
remap applied to each inserted row (`DESC_SIMB.trim()` looked up, source
name kept when absent). -/
def fetchAndStoreP5 (pf : String → Rat) (cmap : String → Option String)
    (cd : Int) (force : Bool) (day hour minute : Nat)
    (fetch : Except Unit (List Item)) (insertFault : Nat → Bool)
    (pruneFault : Bool) (now : Int) (nextId : Nat) (t : List Row) :
    CycleResult × List Row :=
  if !force && marketClosedP5 day hour minute then (.skipped, t)
  else
    match fetch with
    | .error _ => (.fetchFailed, t)
    | .ok items =>
      if (List.range items.length).any insertFault || pruneFault then
        (.writeFailed, t)
      else
        (.success items.length,
          pruneServer cd now
            (t ++ (insertedRows pf now nextId items).map fun r =>
              { r with nombre := (cmap r.nombre.trim).getD r.nombre }))

/-- The sqlite prune of `part_002`:
`DELETE FROM precios WHERE fecha_registro <= date('now','-30 days')`.
sqlite compares the DATETIME text `YYYY-MM-DD HH:MM:SS` against the DATE
text `YYYY-MM-DD`; a timestamp is `<=` the cutoff date exactly when its
calendar day is strictly earlier, so kept are the rows whose day is at
least the cutoff day. -/
def pruneP2 (now : Int) (t : List Row) : List Row :=
  t.filter fun r => decide (dateOf (now - 30 * secPerDay) ≤ dateOf r.fecha_registro)

/-- `fetchAndStore()` of `part_002` (sqlite3): no market gate and no
transaction. Each `stmt.run` auto-commits on its own and a failing insert
is neither checked nor rolled back, so exactly the non-faulted items of
the batch are persisted, and the prune still runs afterwards. -/
def fetchAndStoreP2 (pf : String → Rat) (fetch : Except Unit (List Item))
    (insertFault : Nat → Bool) (now : Int) (nextId : Nat) (t : List Row) :
    List Row :=
  match fetch with
  | .error _ => t
  | .ok items =>
    let kept :=
      ((items.mapIdx fun i it => (i, itemToRow pf now (nextId + i) it)).filter
          fun p => !insertFault p.1).map Prod.snd
    pruneP2 now (t ++ kept)

/-- Symbols present in a storage state. -/
def symbols (t : List Row) : List String := t.map Row.symbol

/-- `v` is the maximum `fecha_registro` among the rows of symbol `s`. -/
def IsMaxFechaFor (t : List Row) (s : String) (v : Int) : Prop :=
  (∃ r ∈ t, r.symbol = s ∧ r.fecha_registro = v) ∧
    ∀ r ∈ t, r.symbol = s → r.fecha_registro ≤ v

theorem perm_insertSorted (le : Row → Row → Bool) (r : Row) (l : List Row) :
    (insertSorted le r l).Perm (r :: l) := by
  induction l with
  | nil => simp [insertSorted]
  | cons x xs ih =>
    by_cases h : le r x
    · simp [insertSorted, h]
    · simp only [insertSorted, h, Bool.false_eq_true, if_false]
      exact (ih.cons x).trans (List.Perm.swap r x xs)

theorem perm_sortRows (le : Row → Row → Bool) (l : List Row) :
    (sortRows le l).Perm l := by
  induction l with
  | nil => simp [sortRows]
  | cons r rs ih =>
    exact (perm_insertSorted le r (sortRows le rs)).trans (ih.cons r)

theorem mem_sortRows {le : Row → Row → Bool} {l : List Row} {x : Row} :
    x ∈ sortRows le l ↔ x ∈ l := (perm_sortRows le l).mem_iff

theorem pairwise_insertSorted {le : Row → Row → Bool}
    (htot : ∀ a b, le a b = true ∨ le b a = true)
    (htrans : ∀ a b c, le a b = true → le b c = true → le a c = true)
    {r : Row} {l : List Row} (h : l.Pairwise fun a b => le a b = true) :
    (insertSorted le r l).Pairwise fun a b => le a b = true := by
  induction l with
  | nil => simp [insertSorted]
  | cons x xs ih =>
    rcases List.pairwise_cons.mp h with ⟨hx, hxs⟩
    by_cases hle : le r x
    · simp only [insertSorted, hle, if_true]
      refine List.pairwise_cons.mpr ⟨?_, h⟩
      intro y hy
      rcases List.mem_cons.mp hy with hy | hy
      · exact hy ▸ hle
      · exact htrans r x y hle (hx y hy)
    · simp only [insertSorted, hle, Bool.false_eq_true, if_false]
      refine List.pairwise_cons.mpr ⟨?_, ih hxs⟩
      intro y hy
      rcases List.mem_cons.mp ((perm_insertSorted le r xs).mem_iff.mp hy) with hy | hy
      · rw [hy]
        rcases htot r x with hrx | hxr
        · exact absurd hrx hle
        · exact hxr
      · exact hx y hy

theorem pairwise_sortRows {le : Row → Row → Bool}
    (htot : ∀ a b, le a b = true ∨ le b a = true)
    (htrans : ∀ a b c, le a b = true → le b c = true → le a c = true)
    (l : List Row) : (sortRows le l).Pairwise fun a b => le a b = true := by
  induction l with
  | nil => simp [sortRows]
  | cons r rs ih => exact pairwise_insertSorted htot htrans ih

theorem keyFechaLe_total {K : Type} [LinearOrder K] (key : Row → K)
    (a b : Row) : keyFechaLe key a b = true ∨ keyFechaLe key b a = true := by
  unfold keyFechaLe
  rcases lt_trichotomy (key a) (key b) with h | h | h
  · left; simp [h]
  · rcases le_total b.fecha_registro a.fecha_registro with hf | hf
    · left; simp [h, hf]
    · right; simp [h.symm, hf]
  · right; simp [h]

theorem keyFechaLe_trans {K : Type} [LinearOrder K] (key : Row → K)
    (a b c : Row) (hab : keyFechaLe key a b = true)
    (hbc : keyFechaLe key b c = true) : keyFechaLe key a c = true := by
  unfold keyFechaLe at *
  simp only [Bool.or_eq_true, Bool.and_eq_true, decide_eq_true_eq] at *
  rcases hab with hab | ⟨hab, fab⟩
  · rcases hbc with hbc | ⟨hbc, _⟩
    · exact Or.inl (hab.trans hbc)
    · exact Or.inl (hbc ▸ hab)
  · rcases hbc with hbc | ⟨hbc, fbc⟩
    · exact Or.inl (hab ▸ hbc)
    · exact Or.inr ⟨hab.trans hbc, fbc.trans fab⟩

theorem fechaAscLe_total (a b : Row) :
    fechaAscLe a b = true ∨ fechaAscLe b a = true := by
  unfold fechaAscLe
  rcases le_total a.fecha_registro b.fecha_registro with h | h
  · left; simpa using h
  · right; simpa using h

theorem fechaAscLe_trans (a b c : Row) (hab : fechaAscLe a b = true)
    (hbc : fechaAscLe b c = true) : fechaAscLe a c = true := by
  simp only [fechaAscLe, decide_eq_true_eq] at *
  exact hab.trans hbc

theorem fechaDescLe_total (a b : Row) :
    fechaDescLe a b = true ∨ fechaDescLe b a = true := by
  unfold fechaDescLe
  rcases le_total a.fecha_registro b.fecha_registro with h | h
  · right; simpa using h
  · left; simpa using h

theorem fechaDescLe_trans (a b c : Row) (hab : fechaDescLe a b = true)
    (hbc : fechaDescLe b c = true) : fechaDescLe a c = true := by
  simp only [fechaDescLe, decide_eq_true_eq] at *
  exact hbc.trans hab

/-- After sorting by `key ASC, fecha_registro DESC`, rows that tie on the
key are in weakly descending `fecha_registro` order. -/
theorem pairwise_sortRows_keyFecha {K : Type} [LinearOrder K] (key : Row → K)
    (l : List Row) :
    (sortRows (keyFechaLe key) l).Pairwise fun a b =>
      key a = key b → b.fecha_registro ≤ a.fecha_registro := by
  refine (pairwise_sortRows (keyFechaLe_total key) (keyFechaLe_trans key) l).imp ?_
  intro a b hab hk
  simp only [keyFechaLe, Bool.or_eq_true, Bool.and_eq_true, decide_eq_true_eq] at hab
  rcases hab with hab | ⟨_, hf⟩
  · exact absurd hab (by simp [hk])
  · exact hf

theorem charListLt_irrefl (a : List Char) : charListLt a a = false := by
  induction a with
  | nil => rfl
  | cons x as ih => simp [charListLt, lt_irrefl, ih]

theorem charListLt_trans :
    ∀ {a b c : List Char}, charListLt a b = true → charListLt b c = true →
      charListLt a c = true
  | [], [], _, hab, _ => by simp [charListLt] at hab
  | [], _ :: _, [], _, hbc => by simp [charListLt] at hbc
  | [], _ :: _, _ :: _, _, _ => rfl
  | _ :: _, [], _, hab, _ => by simp [charListLt] at hab
  | _ :: _, _ :: _, [], _, hbc => by simp [charListLt] at hbc
  | x :: as, y :: bs, z :: cs, hab, hbc => by
    simp only [charListLt] at *
    by_cases hxy : x < y
    · by_cases hyz : y < z
      · simp [hxy.trans hyz]
      · by_cases hzy : z < y
        · simp [hyz, hzy] at hbc
        · have hyz' : y = z := le_antisymm (le_of_not_lt hzy) (le_of_not_lt hyz)
          simp [hyz' ▸ hxy]
    · by_cases hyx : y < x
      · simp [hxy, hyx] at hab
      · have hxy' : x = y := le_antisymm (le_of_not_lt hyx) (le_of_not_lt hxy)
        simp only [hxy, hyx, if_false] at hab
        by_cases hyz : y < z
        · simp [hxy' ▸ hyz]
        · by_cases hzy : z < y
          · simp [hyz, hzy] at hbc
          · simp only [hyz, hzy, if_false] at hbc
            have hyz' : y = z :=
              le_antisymm (le_of_not_lt hzy) (le_of_not_lt hyz)
            have hxz : ¬ x < z := by rw [hxy', hyz']; exact lt_irrefl z
            have hzx : ¬ z < x := by rw [hxy', hyz']; exact lt_irrefl z
            simp [hxz, hzx, charListLt_trans hab hbc]

theorem charListLt_connex (a b : List Char) :
    charListLt a b = true ∨ charListLt b a = true ∨ a = b := by
  induction a generalizing b with
  | nil =>
    cases b with
    | nil => exact Or.inr (Or.inr rfl)
    | cons y bs => exact Or.inl rfl
  | cons x as ih =>
    cases b with
    | nil => exact Or.inr (Or.inl rfl)
    | cons y bs =>
      by_cases hxy : x < y
      · exact Or.inl (by simp [charListLt, hxy])
      · by_cases hyx : y < x
        · exact Or.inr (Or.inl (by simp [charListLt, hyx]))
        · have hxy' : x = y := le_antisymm (le_of_not_lt hyx) (le_of_not_lt hxy)
          rcases ih bs with h | h | h
          · exact Or.inl (by simp [charListLt, hxy, hyx, h])
          · refine Or.inr (Or.inl ?_)
            subst hxy'
            simp [charListLt, hxy, h]
          · exact Or.inr (Or.inr (by rw [hxy', h]))

theorem strLtB_self (s : String) : strLtB s s = false := by
  unfold strLtB
  exact charListLt_irrefl s.data

theorem symLe_total (a b : Row) : symLe a b = true ∨ symLe b a = true := by
  rcases charListLt_connex a.symbol.data b.symbol.data with h | h | h
  · exact Or.inl (by simp [symLe, strLtB, h])
  · exact Or.inr (by simp [symLe, strLtB, h])
  · have hs : a.symbol = b.symbol := congrArg String.mk h
    rcases le_total b.fecha_registro a.fecha_registro with hf | hf
    · exact Or.inl (by simp [symLe, hs, hf])
    · exact Or.inr (by simp [symLe, hs, hf])

theorem symLe_trans (a b c : Row) (hab : symLe a b = true)
    (hbc : symLe b c = true) : symLe a c = true := by
  unfold symLe at *
  simp only [Bool.or_eq_true, Bool.and_eq_true, decide_eq_true_eq,
    beq_iff_eq] at *
  rcases hab with hab | ⟨hab, fab⟩
  · rcases hbc with hbc | ⟨hbc, _⟩
    · exact Or.inl (charListLt_trans hab hbc)
    · exact Or.inl (hbc ▸ hab)
  · rcases hbc with hbc | ⟨hbc, fbc⟩
    · exact Or.inl (hab ▸ hbc)
    · exact Or.inr ⟨hab.trans hbc, fbc.trans fab⟩

/-- After sorting by `symbol ASC, fecha_registro DESC`, rows of one symbol
are in weakly descending `fecha_registro` order. -/
theorem pairwise_sortRows_symFecha (l : List Row) :
    (sortRows symLe l).Pairwise fun a b =>
      a.symbol = b.symbol → b.fecha_registro ≤ a.fecha_registro := by
  refine (pairwise_sortRows symLe_total symLe_trans l).imp ?_
  intro a b hab hk
  simp only [symLe, Bool.or_eq_true, Bool.and_eq_true, decide_eq_true_eq] at hab
  rcases hab with hab | ⟨_, hf⟩
  · rw [hk] at hab
    rw [strLtB_self] at hab
    exact absurd hab (by simp)
  · exact hf

theorem mem_distinctOnAux {K : Type} [DecidableEq K] {key : Row → K}
    {seen : List K} {l : List Row} {x : Row}
    (hx : x ∈ distinctOnAux key seen l) : x ∈ l ∧ key x ∉ seen := by
  induction l generalizing seen with
  | nil => simp [distinctOnAux] at hx
  | cons r rs ih =>
    by_cases hr : key r ∈ seen
    · simp only [distinctOnAux, hr, if_true] at hx
      rcases ih hx with ⟨hmem, hns⟩
      exact ⟨List.mem_cons_of_mem r hmem, hns⟩
    · simp only [distinctOnAux, hr, if_false] at hx
      rcases List.mem_cons.mp hx with hx | hx
      · exact ⟨hx ▸ List.mem_cons_self r rs, hx ▸ hr⟩
      · rcases ih hx with ⟨hmem, hns⟩
        refine ⟨List.mem_cons_of_mem r hmem, ?_⟩
        intro hc
        exact hns (List.mem_cons_of_mem _ hc)

theorem key_mem_distinctOnAux {K : Type} [DecidableEq K] {key : Row → K}
    {seen : List K} {l : List Row} {k : K}
    (hk : k ∈ l.map key) (hns : k ∉ seen) :
    k ∈ (distinctOnAux key seen l).map key := by
  induction l generalizing seen with
  | nil => simp at hk
  | cons r rs ih =>
    rcases List.mem_map.mp hk with ⟨y, hy, hky⟩
    by_cases hr : key r ∈ seen
    · simp only [distinctOnAux, hr, if_true]
      rcases List.mem_cons.mp hy with hy | hy
      · exact absurd (hky ▸ hy ▸ hr) (by exact fun h => hns h)
      · exact ih (List.mem_map.mpr ⟨y, hy, hky⟩) hns
    · simp only [distinctOnAux, hr, if_false, List.map_cons]
      by_cases hkr : k = key r
      · exact hkr ▸ List.mem_cons_self _ _
      · rcases List.mem_cons.mp hy with hy | hy
        · exact absurd (hy ▸ hky) (by exact fun h => hkr h.symm)
        · refine List.mem_cons_of_mem _ (ih (List.mem_map.mpr ⟨y, hy, hky⟩) ?_)
          intro hc
          rcases List.mem_cons.mp hc with hc | hc
          · exact hkr hc
          · exact hns hc

theorem nodup_map_key_distinctOnAux {K : Type} [DecidableEq K] (key : Row → K)
    (seen : List K) (l : List Row) :
    ((distinctOnAux key seen l).map key).Nodup := by
  induction l generalizing seen with
  | nil => simp [distinctOnAux]
  | cons r rs ih =>
    by_cases hr : key r ∈ seen
    · simpa only [distinctOnAux, hr, if_true] using ih seen
    · simp only [distinctOnAux, hr, if_false, List.map_cons, List.nodup_cons]
      refine ⟨?_, ih (key r :: seen)⟩
      intro hc
      rcases List.mem_map.mp hc with ⟨y, hy, hky⟩
      exact (mem_distinctOnAux hy).2 (hky ▸ List.mem_cons_self _ _)

theorem distinctOnAux_max {K : Type} [DecidableEq K] {key : Row → K}
    {l : List Row}
    (hp : l.Pairwise fun a b => key a = key b → b.fecha_registro ≤ a.fecha_registro)
    {seen : List K} {x : Row} (hx : x ∈ distinctOnAux key seen l) :
    ∀ y ∈ l, key y = key x → y.fecha_registro ≤ x.fecha_registro := by
  induction l generalizing seen with
  | nil => simp [distinctOnAux] at hx
  | cons r rs ih =>
    rcases List.pairwise_cons.mp hp with ⟨hr, hrs⟩
    intro y hy hky
    by_cases hseen : key r ∈ seen
    · simp only [distinctOnAux, hseen, if_true] at hx
      rcases List.mem_cons.mp hy with hy | hy
      · exfalso
        exact (mem_distinctOnAux hx).2 (hky ▸ hy ▸ hseen)
      · exact ih hrs hx y hy hky
    · simp only [distinctOnAux, hseen, if_false] at hx
      rcases List.mem_cons.mp hx with hx | hx
      · rcases List.mem_cons.mp hy with hy | hy
        · rw [hy, hx]
        · exact hx ▸ hr y hy (hky ▸ (by rw [hx]))
      · rcases List.mem_cons.mp hy with hy | hy
        · exfalso
          have := (mem_distinctOnAux hx).2
          exact this (hky ▸ hy ▸ List.mem_cons_self _ _)
        · exact ih hrs hx y hy hky

theorem mem_distinctOn {K : Type} [DecidableEq K] {key : Row → K}
    {l : List Row} {x : Row} (hx : x ∈ distinctOn key l) : x ∈ l :=
  (mem_distinctOnAux hx).1

theorem key_mem_distinctOn {K : Type} [DecidableEq K] {key : Row → K}
    {l : List Row} {k : K} (hk : k ∈ l.map key) :
    k ∈ (distinctOn key l).map key :=
  key_mem_distinctOnAux hk (List.not_mem_nil k)

theorem nodup_map_key_distinctOn {K : Type} [DecidableEq K] (key : Row → K)
    (l : List Row) : ((distinctOn key l).map key).Nodup :=
  nodup_map_key_distinctOnAux key [] l

/-- If a list has pairwise-distinct keys and contains key `k`, the rows
with key `k` are counted exactly once. -/
theorem countP_key_eq_one {K : Type} [DecidableEq K] {key : Row → K}
    {l : List Row} {k : K} (hnd : (l.map key).Nodup) (hk : k ∈ l.map key) :
    l.countP (fun r => decide (key r = k)) = 1 := by
  induction l with
  | nil => simp at hk
  | cons r rs ih =>
    simp only [List.map_cons, List.nodup_cons] at hnd
    rcases hnd with ⟨hnr, hnd⟩
    by_cases hkr : key r = k
    · have hz : rs.countP (fun r => decide (key r = k)) = 0 := by
        rw [List.countP_eq_zero]
        intro a ha
        simp only [decide_eq_true_eq]
        intro hc
        exact hnr (hkr ▸ hc ▸ List.mem_map_of_mem key ha)
      simp [List.countP_cons, hkr, hz]
    · have hk' : k ∈ rs.map key := by
        rcases List.mem_map.mp hk with ⟨y, hy, hky⟩
        rcases List.mem_cons.mp hy with hy | hy
        · exact absurd (hy ▸ hky) hkr
        · exact List.mem_map.mpr ⟨y, hy, hky⟩
      simp [List.countP_cons, hkr, ih hnd hk']

theorem remapNombre_symbol (cmap : String → Option String) (r : Row) :
    (remapNombre cmap r).symbol = r.symbol := rfl

theorem remapNombre_fecha (cmap : String → Option String) (r : Row) :
    (remapNombre cmap r).fecha_registro = r.fecha_registro := rfl

/-- A concrete row with only identity, symbol and timestamp filled in. -/
def rowMk (rid : Nat) (s : String) (f : Int) : Row :=
  { id := rid
    symbol := s
    nombre := s
    precio := 0
    var_abs := ""
    var_rel := ""
    volumen := ""
    monto_efectivo := 0
    hora := ""
    icon := ""
    fecha_registro := f }

/-- Claim C1, counterexample: on the `server.js` route `GET
/api/bolsa/actual`, a table holding symbol A only at timestamp 1 and
symbol B at the table-wide maximum 2 answers with no row at all for A,
refuting one-row-per-present-symbol. -/
theorem actual_route_misses_symbol_cex :
    "A" ∈ symbols [rowMk 1 "A" 1, rowMk 2 "B" 2] ∧
    (actualQuery [rowMk 1 "A" 1, rowMk 2 "B" 2]).countP
      (fun r => decide (r.symbol = "A")) = 0 := by decide

/-- Claim C1, amended: the per-symbol guarantee holds for the `part_005`
implementation `getLatestMarketData` (one row per present symbol, carrying
that symbol's maximum `fecha_registro`), while the `server.js` route
`GET /api/bolsa/actual` instead returns exactly the rows carrying the
table-wide maximum `fecha_registro`, so a symbol whose rows all predate it
is absent from that answer. -/
theorem getLatest_per_symbol_amended (cmap : String → Option String)
    (t : List Row) (s : String) (hs : s ∈ symbols t) :
    (getLatestMarketData cmap t).countP (fun r => decide (r.symbol = s)) = 1 ∧
    (∀ r ∈ getLatestMarketData cmap t, r.symbol = s →
      IsMaxFechaFor t s r.fecha_registro) ∧
    (∀ r, r ∈ actualQuery t ↔ r ∈ t ∧ maxFechaAll t = some r.fecha_registro) := by
  have hinnerperm := perm_sortRows symLe t
  have houterperm :=
    perm_sortRows fechaDescLe
      (distinctOn Row.symbol (sortRows symLe t))
  refine ⟨?_, ?_, ?_⟩
  · unfold getLatestMarketData
    rw [List.countP_map]
    have hcong :
        List.countP
          ((fun r => decide (r.symbol = s)) ∘ remapNombre cmap)
          (sortRows fechaDescLe
            (distinctOn Row.symbol (sortRows symLe t))) =
        List.countP (fun r => decide (r.symbol = s))
          (sortRows fechaDescLe
            (distinctOn Row.symbol (sortRows symLe t))) := by
      apply List.countP_congr
      intro a _
      simp [remapNombre_symbol]
    rw [hcong, houterperm.countP_eq]
    apply countP_key_eq_one (nodup_map_key_distinctOn Row.symbol _)
    apply key_mem_distinctOn
    exact (hinnerperm.map Row.symbol).mem_iff.mpr hs
  · intro r hr hrs
    unfold getLatestMarketData at hr
    rcases List.mem_map.mp hr with ⟨r0, hr0, hremap⟩
    have hsym : r0.symbol = s := by
      rw [← hremap] at hrs
      simpa [remapNombre_symbol] using hrs
    have hfec : r0.fecha_registro = r.fecha_registro := by
      rw [← hremap, remapNombre_fecha]
    have hr0D := houterperm.mem_iff.mp hr0
    have hr0t : r0 ∈ t := hinnerperm.mem_iff.mp (mem_distinctOn hr0D)
    have hmax :=
      distinctOnAux_max (pairwise_sortRows_symFecha t) hr0D
    constructor
    · exact ⟨r0, hr0t, hsym, hfec⟩
    · intro y hy hys
      rw [← hfec]
      exact hmax y (hinnerperm.mem_iff.mpr hy) (by rw [hys, hsym])
  · intro r
    unfold actualQuery
    rw [List.mem_filter]
    simp

/-- Claim C1, witness for the amended theorem at a concrete store. -/
theorem getLatest_per_symbol_amended_witness :
    "A" ∈ symbols [rowMk 1 "A" 5, rowMk 2 "A" 9, rowMk 3 "B" 7] ∧
    ((getLatestMarketData (fun _ => none)
        [rowMk 1 "A" 5, rowMk 2 "A" 9, rowMk 3 "B" 7]).countP
      (fun r => decide (r.symbol = "A")) = 1 ∧
    (∀ r ∈ getLatestMarketData (fun _ => none)
        [rowMk 1 "A" 5, rowMk 2 "A" 9, rowMk 3 "B" 7], r.symbol = "A" →
      IsMaxFechaFor [rowMk 1 "A" 5, rowMk 2 "A" 9, rowMk 3 "B" 7] "A"
        r.fecha_registro) ∧
    (∀ r, r ∈ actualQuery [rowMk 1 "A" 5, rowMk 2 "A" 9, rowMk 3 "B" 7] ↔
      r ∈ [rowMk 1 "A" 5, rowMk 2 "A" 9, rowMk 3 "B" 7] ∧
        maxFechaAll [rowMk 1 "A" 5, rowMk 2 "A" 9, rowMk 3 "B" 7] =
          some r.fecha_registro)) :=
  ⟨by decide, getLatest_per_symbol_amended (fun _ => none) _ "A" (by decide)⟩

/-- Truncation to calendar days is monotone. -/
theorem dateOf_mono {a b : Int} (h : a ≤ b) : dateOf a ≤ dateOf b :=
  Int.ediv_le_ediv (by norm_num [secPerDay]) h

/-- A list with pairwise-distinct keys holds at most one row of any key. -/
theorem countP_key_le_one {K : Type} [DecidableEq K] {key : Row → K}
    {l : List Row} (hnd : (l.map key).Nodup) (k : K) :
    l.countP (fun r => decide (key r = k)) ≤ 1 := by
  by_cases hk : k ∈ l.map key
  · exact (countP_key_eq_one hnd hk).le
  · have hz : l.countP (fun r => decide (key r = k)) = 0 := by
      rw [List.countP_eq_zero]
      intro a ha
      simp only [decide_eq_true_eq]
      intro hc
      exact hk (hc ▸ List.mem_map_of_mem key ha)
    simp [hz]

/-- Membership in the shared history window filter, unfolded. -/
theorem mem_historialWindow {t : List Row} {sym : String} {d now : Int} {r : Row} :
    r ∈ historialWindow t sym d now ↔
      r ∈ t ∧ r.symbol = sym ∧ now - d * secPerDay ≤ r.fecha_registro := by
  unfold historialWindow
  rw [List.mem_filter]
  simp [and_assoc]

/-- Claim C2, counterexample: the `part_005` history route does not
down-sample. With two same-day rows of symbol A inside a 5-day window it
answers with both rows of that calendar day. -/
theorem historial_p5_no_downsample_cex :
    (historialRouteP5 [rowMk 1 "A" 100, rowMk 2 "A" 200] "A" "5" 200).countP
      (fun r => decide (dateOf r.fecha_registro = 0)) = 2 := by decide

/-- Claim C2, amended: the per-day down-sampling contract holds for the
`server.js` history route (`days != 1` branch): at most one row per
calendar day; every returned row is a stored row of the symbol inside
`[now - days, now]` and is the latest capture of its day within the
window; every day with at least one in-window row is represented; and the
result ascends by day. The `part_005` route instead returns every
in-window row. -/
theorem historial_downsample_serverJs (t : List Row) (sym : String)
    (d now : Int) (hd : 2 ≤ d) (hnow : ∀ r ∈ t, r.fecha_registro ≤ now) :
    (∀ day : Int, (historialMultiDay t sym d now).countP
        (fun r => decide (dateOf r.fecha_registro = day)) ≤ 1) ∧
    (∀ r ∈ historialMultiDay t sym d now,
      r ∈ t ∧ r.symbol = sym ∧
        now - d * secPerDay ≤ r.fecha_registro ∧ r.fecha_registro ≤ now ∧
        ∀ y ∈ t, y.symbol = sym → now - d * secPerDay ≤ y.fecha_registro →
          dateOf y.fecha_registro = dateOf r.fecha_registro →
          y.fecha_registro ≤ r.fecha_registro) ∧
    (∀ y ∈ t, y.symbol = sym → now - d * secPerDay ≤ y.fecha_registro →
      ∃ r ∈ historialMultiDay t sym d now,
        dateOf r.fecha_registro = dateOf y.fecha_registro) ∧
    (historialMultiDay t sym d now).Pairwise
      (fun a b => dateOf a.fecha_registro ≤ dateOf b.fecha_registro) := by
  have hinnerperm :=
    perm_sortRows (keyFechaLe fun r => dateOf r.fecha_registro)
      (historialWindow t sym d now)
  have houterperm :=
    perm_sortRows fechaAscLe
      (distinctOn (fun r => dateOf r.fecha_registro)
        (sortRows (keyFechaLe fun r => dateOf r.fecha_registro)
          (historialWindow t sym d now)))
  refine ⟨?_, ?_, ?_, ?_⟩
  · intro day
    unfold historialMultiDay
    rw [houterperm.countP_eq]
    exact countP_key_le_one
      (nodup_map_key_distinctOn (fun r => dateOf r.fecha_registro) _) day
  · intro r hr
    unfold historialMultiDay at hr
    have hrD := houterperm.mem_iff.mp hr
    have hrW : r ∈ historialWindow t sym d now :=
      hinnerperm.mem_iff.mp (mem_distinctOn hrD)
    rcases mem_historialWindow.mp hrW with ⟨hrt, hrsym, hrlo⟩
    have hmax :=
      distinctOnAux_max
        (pairwise_sortRows_keyFecha (fun r => dateOf r.fecha_registro)
          (historialWindow t sym d now)) hrD
    refine ⟨hrt, hrsym, hrlo, hnow r hrt, ?_⟩
    intro y hy hysym hylo hyday
    exact hmax y
      (hinnerperm.mem_iff.mpr (mem_historialWindow.mpr ⟨hy, hysym, hylo⟩)) hyday
  · intro y hy hysym hylo
    have hyW : y ∈ historialWindow t sym d now :=
      mem_historialWindow.mpr ⟨hy, hysym, hylo⟩
    have hkey :
        dateOf y.fecha_registro ∈
          ((distinctOn (fun r => dateOf r.fecha_registro)
            (sortRows (keyFechaLe fun r => dateOf r.fecha_registro)
              (historialWindow t sym d now))).map
            fun r => dateOf r.fecha_registro) := by
      apply key_mem_distinctOn
      exact (hinnerperm.map fun r => dateOf r.fecha_registro).mem_iff.mpr
        (List.mem_map_of_mem _ hyW)
    rcases List.mem_map.mp hkey with ⟨r, hrD, hrday⟩
    exact ⟨r, houterperm.mem_iff.mpr hrD, hrday⟩
  · unfold historialMultiDay
    refine (pairwise_sortRows fechaAscLe_total fechaAscLe_trans _).imp ?_
    intro a b hab
    exact dateOf_mono (by simpa [fechaAscLe] using hab)

/-- Claim C2, witness for the amended theorem at a concrete store: two
same-day rows and an earlier-day row of symbol A, window of 5 days. -/
theorem historial_downsample_serverJs_witness :
    (2 ≤ (5 : Int)) ∧
    (∀ r ∈ [rowMk 1 "A" 90000, rowMk 2 "A" 100000, rowMk 3 "A" 10000],
      r.fecha_registro ≤ (100000 : Int)) ∧
    ((∀ day : Int,
      (historialMultiDay [rowMk 1 "A" 90000, rowMk 2 "A" 100000, rowMk 3 "A" 10000]
          "A" 5 100000).countP
        (fun r => decide (dateOf r.fecha_registro = day)) ≤ 1) ∧
    (∀ r ∈ historialMultiDay
        [rowMk 1 "A" 90000, rowMk 2 "A" 100000, rowMk 3 "A" 10000] "A" 5 100000,
      r ∈ [rowMk 1 "A" 90000, rowMk 2 "A" 100000, rowMk 3 "A" 10000] ∧
        r.symbol = "A" ∧
        (100000 : Int) - 5 * secPerDay ≤ r.fecha_registro ∧
        r.fecha_registro ≤ 100000 ∧
        ∀ y ∈ [rowMk 1 "A" 90000, rowMk 2 "A" 100000, rowMk 3 "A" 10000],
          y.symbol = "A" → (100000 : Int) - 5 * secPerDay ≤ y.fecha_registro →
          dateOf y.fecha_registro = dateOf r.fecha_registro →
          y.fecha_registro ≤ r.fecha_registro) ∧
    (∀ y ∈ [rowMk 1 "A" 90000, rowMk 2 "A" 100000, rowMk 3 "A" 10000],
      y.symbol = "A" → (100000 : Int) - 5 * secPerDay ≤ y.fecha_registro →
      ∃ r ∈ historialMultiDay
          [rowMk 1 "A" 90000, rowMk 2 "A" 100000, rowMk 3 "A" 10000] "A" 5 100000,
        dateOf r.fecha_registro = dateOf y.fecha_registro) ∧
    (historialMultiDay [rowMk 1 "A" 90000, rowMk 2 "A" 100000, rowMk 3 "A" 10000]
        "A" 5 100000).Pairwise
      (fun a b => dateOf a.fecha_registro ≤ dateOf b.fecha_registro)) :=
  ⟨by decide, by decide,
    historial_downsample_serverJs _ "A" 5 100000 (by decide) (by decide)⟩

/-- A fixed trivial float parse used by concrete counterexamples and
witnesses; the claims hold for every parse function. -/
def pf0 : String → Rat := fun _ => 0

/-- A concrete scraped item. -/
def itemMk (s : String) : Item :=
  { COD_SIMB := s
    DESC_SIMB := s
    PRECIO := "1"
    VAR_ABS := "0"
    VAR_REL := "0"
    VOLUMEN := "0"
    MONTO_EFECTIVO := "1"
    HORA := "10:00"
    ICON := "" }

/-- Claim C3, counterexample: a forced `server.js` cycle whose fetch
returns the empty list still runs its transaction, so the prune deletes a
row older than the 30-day retention and the row count drops from 1 to 0. -/
theorem emptyFetch_prunes_cex :
    ([rowMk 1 "A" (-10000000)] : List Row).length = 1 ∧
    ((fetchAndStoreServerJs pf0 30 true 1 10 (.ok []) (fun _ => false) false
        0 2 [rowMk 1 "A" (-10000000)]).2).length = 0 := by decide

/-- Claim C3, amended: when the upstream fetch fails, `fetchAndStore`
leaves storage untouched (in particular the row count is unchanged); but
an empty fetched list is not treated as a failure: the cycle inserts
nothing yet still executes the retention prune, so the resulting table is
the old table with rows at or older than the cutoff removed. -/
theorem failsoft_amended (pf : String → Rat) (cd : Int) (force : Bool)
    (day hour : Nat) (insertFault : Nat → Bool) (pruneFault : Bool)
    (now : Int) (nextId : Nat) (t : List Row) (e : Unit) :
    ((fetchAndStoreServerJs pf cd force day hour (.error e) insertFault
        pruneFault now nextId t).2 = t) ∧
    ((fetchAndStoreServerJs pf cd true day hour (.ok []) insertFault false
        now nextId t).2 = pruneServer cd now t) := by
  constructor
  · unfold fetchAndStoreServerJs
    by_cases h : (!force && marketClosedServerJs day hour) = true
    · simp [h]
    · simp [h]
  · unfold fetchAndStoreServerJs
    simp [insertedRows, List.mapIdx_nil]

/-- Claim C4, counterexample: the sqlite variant `part_002` runs its
insert batch with no transaction, so when the first of two inserts fails
the second row is persisted anyway: one of the two rows survives instead
of zero. -/
theorem p2_partial_batch_cex :
    (fetchAndStoreP2 pf0 (.ok [itemMk "A", itemMk "B"]) (fun i => i == 0)
        0 1 []).length = 1 := by decide

/-- Claim C4, amended: the Postgres variants wrap the insert batch and the
prune in one transaction with `ROLLBACK` on error, so any write failure
mid-batch leaves the table in its pre-cycle state (zero of the N rows
persisted); the sqlite variant `part_002` has no transaction and persists
the non-failing inserts. -/
theorem serverJs_write_atomicity (pf : String → Rat) (cd : Int) (force : Bool)
    (day hour : Nat) (items : List Item) (insertFault : Nat → Bool)
    (pruneFault : Bool) (now : Int) (nextId : Nat) (t : List Row)
    (hfault : (List.range items.length).any insertFault = true ∨
      pruneFault = true) :
    (fetchAndStoreServerJs pf cd force day hour (.ok items) insertFault
        pruneFault now nextId t).2 = t := by
  unfold fetchAndStoreServerJs
  by_cases h : (!force && marketClosedServerJs day hour) = true
  · simp [h]
  · have hcond : ((List.range items.length).any insertFault || pruneFault) = true := by
      rcases hfault with hf | hf
      · simp [hf]
      · simp [hf]
    simp [h, hcond]

/-- Claim C4, witness for the amended theorem: a two-item batch whose
second insert fails leaves the one-row pre-cycle table unchanged. -/
theorem serverJs_write_atomicity_witness :
    ((List.range ([itemMk "A", itemMk "B"] : List Item).length).any
        (fun i => i == 1) = true ∨ False = true) ∧
    (fetchAndStoreServerJs pf0 30 true 2 10 (.ok [itemMk "A", itemMk "B"])
        (fun i => i == 1) false 0 7 [rowMk 1 "C" 5]).2 = [rowMk 1 "C" 5] :=
  ⟨Or.inl (by decide),
    serverJs_write_atomicity pf0 30 true 2 10 [itemMk "A", itemMk "B"]
      (fun i => i == 1) false 0 7 [rowMk 1 "C" 5] (Or.inl (by decide))⟩

/-- Claim C5, counterexample: the sqlite variant `part_002` prunes with
`fecha_registro <= date('now','-30 days')`, a text comparison of the
DATETIME against a date-only string, so it removes only rows from
calendar days strictly before the cutoff day. With `now` 1000 seconds
past the day boundary, a row stamped 500 (on the cutoff day but 500
seconds older than `now - 30 days`) survives a completed cycle. -/
theorem p2_retention_cex :
    rowMk 1 "A" 500 ∈
      fetchAndStoreP2 pf0 (.ok [itemMk "A"]) (fun _ => false) 2593000 2
        [rowMk 1 "A" 500] ∧
    (500 : Int) < 2593000 - 30 * secPerDay := by decide

/-- Claim C5, amended: after every successful cycle of the Postgres
`fetchAndStore` (`server.js`; the prune shape is shared by `part_001` and
`part_003` to `part_005`), no stored row is older than `now` minus the
configured retention (`cleanup_days`, default 30): the `DELETE` removes
everything at or below the cutoff timestamp and all inserted rows carry
`fecha_registro = now`. The sqlite variant `part_002` instead prunes at
calendar-day granularity, so rows on the cutoff day may outlive the
30-day limit by up to a day. -/
theorem retention_invariant (pf : String → Rat) (cd : Int) (force : Bool)
    (day hour : Nat) (fetch : Except Unit (List Item))
    (insertFault : Nat → Bool) (pruneFault : Bool) (now : Int) (nextId : Nat)
    (t : List Row) (n : Nat)
    (hsucc : (fetchAndStoreServerJs pf cd force day hour fetch insertFault
        pruneFault now nextId t).1 = .success n) :
    ∀ r ∈ (fetchAndStoreServerJs pf cd force day hour fetch insertFault
        pruneFault now nextId t).2,
      ¬ (r.fecha_registro < now - cd * secPerDay) := by
  unfold fetchAndStoreServerJs at *
  by_cases h : (!force && marketClosedServerJs day hour) = true
  · simp [h] at hsucc
  · cases fetch with
    | error e => simp [h] at hsucc
    | ok items =>
      by_cases hw : ((List.range items.length).any insertFault || pruneFault) = true
      · simp [h, hw] at hsucc
      · simp only [h, hw, Bool.false_eq_true, if_false]
        intro r hr
        have := (List.mem_filter.mp hr).2
        simp only [decide_eq_true_eq] at this
        omega

/-- Claim C5, witness: a forced cycle over one item prunes the row from
far in the past and every remaining row is inside the retention window. -/
theorem retention_invariant_witness :
    ((fetchAndStoreServerJs pf0 30 true 2 10 (.ok [itemMk "A"])
        (fun _ => false) false 0 4 [rowMk 1 "A" (-10000000)]).1 =
      CycleResult.success 1) ∧
    (∀ r ∈ (fetchAndStoreServerJs pf0 30 true 2 10 (.ok [itemMk "A"])
        (fun _ => false) false 0 4 [rowMk 1 "A" (-10000000)]).2,
      ¬ (r.fecha_registro < 0 - 30 * secPerDay)) :=
  ⟨by decide,
    retention_invariant pf0 30 true 2 10 (.ok [itemMk "A"]) (fun _ => false)
      false 0 4 [rowMk 1 "A" (-10000000)] 1 (by decide)⟩

/-- Claim C6, counterexample: at Tuesday 13:05 Caracas time, outside the
09:00 to 13:00 window, an unforced `part_005` cycle is not skipped: it
fetches, inserts one row and reports success. -/
theorem p5_gate_1305_cex :
    (fetchAndStoreP5 pf0 (fun _ => none) 30 false 2 13 5 (.ok [itemMk "A"])
        (fun _ => false) false 0 1 []).1 = CycleResult.success 1 ∧
    ((fetchAndStoreP5 pf0 (fun _ => none) 30 false 2 13 5 (.ok [itemMk "A"])
        (fun _ => false) false 0 1 []).2).length = 1 := by decide

/-- Claim C6, amended: unforced cycles are skipped entirely (no fetch
consulted, storage untouched) when the Caracas clock is on a weekend or
outside the variant's open window; that window is 09:00 to 12:59 in
`server.js` but 09:00 to 13:09 in `part_005`, which therefore does run at
13:00 to 13:09. -/
theorem market_gate_amended (pf : String → Rat) (cmap : String → Option String)
    (cd : Int) (day hour minute : Nat) (fetch : Except Unit (List Item))
    (insertFault : Nat → Bool) (pruneFault : Bool) (now : Int) (nextId : Nat)
    (t : List Row) :
    ((day = 0 ∨ day = 6 ∨ hour < 9 ∨ 13 ≤ hour) →
      fetchAndStoreServerJs pf cd false day hour fetch insertFault pruneFault
        now nextId t = (.skipped, t)) ∧
    ((day = 0 ∨ day = 6 ∨ hour < 9 ∨ 13 < hour ∨ (hour = 13 ∧ 10 ≤ minute)) →
      fetchAndStoreP5 pf cmap cd false day hour minute fetch insertFault
        pruneFault now nextId t = (.skipped, t)) := by
  constructor
  · intro h
    have hg : marketClosedServerJs day hour = true := by
      unfold marketClosedServerJs
      rcases h with h | h | h | h
      · simp [h]
      · simp [h]
      · simp [h]
      · simp [h]
    unfold fetchAndStoreServerJs
    simp [hg]
  · intro h
    have hg : marketClosedP5 day hour minute = true := by
      unfold marketClosedP5
      rcases h with h | h | h | h | ⟨h1, h2⟩
      · simp [h]
      · simp [h]
      · simp [h]
      · simp [h]
      · simp [h1, h2]
    unfold fetchAndStoreP5
    simp [hg]

/-- Claim C6, witness: Saturday for `server.js` and Monday 13:10 for
`part_005` both skip the cycle and leave the table alone. -/
theorem market_gate_amended_witness :
    ((6 : Nat) = 0 ∨ (6 : Nat) = 6 ∨ (10 : Nat) < 9 ∨ 13 ≤ 10) ∧
    fetchAndStoreServerJs pf0 30 false 6 10 (.ok [itemMk "A"])
      (fun _ => false) false 0 1 [rowMk 1 "A" 5] =
      (CycleResult.skipped, [rowMk 1 "A" 5]) ∧
    ((1 : Nat) = 0 ∨ (1 : Nat) = 6 ∨ (13 : Nat) < 9 ∨ 13 < 13 ∨
      ((13 : Nat) = 13 ∧ 10 ≤ 10)) ∧
    fetchAndStoreP5 pf0 (fun _ => none) 30 false 1 13 10 (.ok [itemMk "A"])
      (fun _ => false) false 0 1 [rowMk 1 "A" 5] =
      (CycleResult.skipped, [rowMk 1 "A" 5]) :=
  ⟨by decide,
    (market_gate_amended pf0 (fun _ => none) 30 6 10 0 (.ok [itemMk "A"])
      (fun _ => false) false 0 1 [rowMk 1 "A" 5]).1 (by decide),
    by decide,
    (market_gate_amended pf0 (fun _ => none) 30 1 13 10 (.ok [itemMk "A"])
      (fun _ => false) false 0 1 [rowMk 1 "A" 5]).2 (by decide)⟩

/-- Claim C7: the `days == 1` branch of the `server.js` history route
returns exactly the stored rows of the symbol captured in
`[now - 1 day, now]` (a permutation of that filter; the SQL predicate has
only the lower bound, and the upper bound holds because no stored row
postdates `now`), ordered ascending by `fecha_registro`. -/
theorem historial_intraday_complete (t : List Row) (sym : String) (now : Int)
    (hnow : ∀ r ∈ t, r.fecha_registro ≤ now) :
    (historialIntraday t sym now).Perm
      (t.filter fun r => r.symbol == sym &&
        (decide (now - secPerDay ≤ r.fecha_registro) &&
          decide (r.fecha_registro ≤ now))) ∧
    (historialIntraday t sym now).Pairwise
      (fun a b => a.fecha_registro ≤ b.fecha_registro) := by
  have hfeq : historialWindow t sym 1 now =
      t.filter fun r => r.symbol == sym &&
        (decide (now - secPerDay ≤ r.fecha_registro) &&
          decide (r.fecha_registro ≤ now)) := by
    unfold historialWindow
    apply List.filter_congr
    intro r hr
    have hu : decide (r.fecha_registro ≤ now) = true := by
      simp [hnow r hr]
    rw [hu]
    simp only [one_mul, Bool.and_true]
  constructor
  · unfold historialIntraday
    rw [hfeq]
    exact perm_sortRows fechaAscLe _
  · unfold historialIntraday
    refine (pairwise_sortRows fechaAscLe_total fechaAscLe_trans _).imp ?_
    intro a b hab
    simpa [fechaAscLe] using hab

/-- Claim C7, witness: only the row inside the last day and of the right
symbol is returned, in ascending order. -/
theorem historial_intraday_complete_witness :
    (∀ r ∈ [rowMk 1 "A" 50, rowMk 2 "A" (-100000), rowMk 3 "B" 40],
      r.fecha_registro ≤ (50 : Int)) ∧
    ((historialIntraday [rowMk 1 "A" 50, rowMk 2 "A" (-100000), rowMk 3 "B" 40]
        "A" 50).Perm
      (([rowMk 1 "A" 50, rowMk 2 "A" (-100000), rowMk 3 "B" 40] : List Row).filter
        fun r => r.symbol == "A" &&
          (decide ((50 : Int) - secPerDay ≤ r.fecha_registro) &&
            decide (r.fecha_registro ≤ (50 : Int)))) ∧
    (historialIntraday [rowMk 1 "A" 50, rowMk 2 "A" (-100000), rowMk 3 "B" 40]
        "A" 50).Pairwise
      (fun a b => a.fecha_registro ≤ b.fecha_registro)) :=
  ⟨by decide, historial_intraday_complete _ "A" 50 (by decide)⟩

/-- Claim C8, counterexample: two rows of symbol A tie on the maximal
`fecha_registro`. The `DISTINCT ON (symbol)` query has no further
tie-break, so the chosen row follows the physical row order the engine
presents: the same storage state (the two lists are permutations of each
other) yields two different answers. -/
theorem getLatest_tie_order_cex :
    List.Perm [rowMk 1 "A" 5, rowMk 2 "A" 5] [rowMk 2 "A" 5, rowMk 1 "A" 5] ∧
    getLatestMarketData (fun _ => none) [rowMk 1 "A" 5, rowMk 2 "A" 5] =
      [rowMk 1 "A" 5] ∧
    getLatestMarketData (fun _ => none) [rowMk 2 "A" 5, rowMk 1 "A" 5] =
      [rowMk 2 "A" 5] ∧
    rowMk 1 "A" 5 ≠ rowMk 2 "A" 5 := by decide

/-- Claim C8, amended: the tie-break of `getLatestMarketData` is not a
fixed rule such as highest id; what is guaranteed is that every returned
row is (the name-remap of) some stored row carrying the maximum
`fecha_registro` of its symbol, the choice among tied rows being
arbitrary (it depends on the physical row order, not only on the storage
state). -/
theorem getLatest_tie_among_max (cmap : String → Option String) (t : List Row)
    (r : Row) (hr : r ∈ getLatestMarketData cmap t) :
    ∃ r0 ∈ t, remapNombre cmap r0 = r ∧
      IsMaxFechaFor t r0.symbol r0.fecha_registro := by
  have hinnerperm := perm_sortRows symLe t
  have houterperm :=
    perm_sortRows fechaDescLe
      (distinctOn Row.symbol (sortRows symLe t))
  unfold getLatestMarketData at hr
  rcases List.mem_map.mp hr with ⟨r0, hr0, hremap⟩
  have hr0D := houterperm.mem_iff.mp hr0
  have hr0t : r0 ∈ t := hinnerperm.mem_iff.mp (mem_distinctOn hr0D)
  have hmax := distinctOnAux_max (pairwise_sortRows_symFecha t) hr0D
  refine ⟨r0, hr0t, hremap, ⟨r0, hr0t, rfl, rfl⟩, ?_⟩
  intro y hy hys
  exact hmax y (hinnerperm.mem_iff.mpr hy) hys

/-- Claim C8, witness for the amended theorem on a tied store. -/
theorem getLatest_tie_among_max_witness :
    rowMk 1 "A" 5 ∈
      getLatestMarketData (fun _ => none) [rowMk 1 "A" 5, rowMk 2 "A" 5] ∧
    ∃ r0 ∈ [rowMk 1 "A" 5, rowMk 2 "A" 5],
      remapNombre (fun _ => none) r0 = rowMk 1 "A" 5 ∧
        IsMaxFechaFor [rowMk 1 "A" 5, rowMk 2 "A" 5] r0.symbol
          r0.fecha_registro :=
  ⟨by decide,
    getLatest_tie_among_max (fun _ => none) [rowMk 1 "A" 5, rowMk 2 "A" 5]
      (rowMk 1 "A" 5) (by decide)⟩

/-- Claim C9: a `days` path parameter on which JS `parseInt` yields `NaN`
is coerced to the default 1 by `parseInt(days) || 1`, and the request is
answered exactly as if `days = 1` had been supplied, on both the
`server.js` route and the `part_005` route. -/
theorem days_malformed_default (t : List Row) (sym daysStr : String)
    (now : Int) (h : jsParseInt daysStr = none) :
    historialRouteServerJs t sym daysStr now =
      historialRouteServerJs t sym "1" now ∧
    historialRouteP5 t sym daysStr now = historialRouteP5 t sym "1" now := by
  have hd : daysLimit daysStr = 1 := by
    unfold daysLimit
    rw [h]
  have h1 : daysLimit "1" = 1 := by decide
  constructor
  · unfold historialRouteServerJs
    rw [hd, h1]
  · unfold historialRouteP5
    rw [hd, h1]

/-- Claim C9, witness: the malformed parameter string x7 behaves as 1. -/
theorem days_malformed_default_witness :
    jsParseInt "x7" = none ∧
    (historialRouteServerJs [rowMk 1 "A" 0] "A" "x7" 0 =
      historialRouteServerJs [rowMk 1 "A" 0] "A" "1" 0 ∧
    historialRouteP5 [rowMk 1 "A" 0] "A" "x7" 0 =
      historialRouteP5 [rowMk 1 "A" 0] "A" "1" 0) :=
  ⟨by decide, days_malformed_default [rowMk 1 "A" 0] "A" "x7" 0 (by decide)⟩

/-- Claim C10: a `days` parameter parsing to a negative integer is not
coerced (only `NaN` and 0 are falsy in `parseInt(days) || 1`): the window
lower bound `now - days` lands in the future, so against any store whose
rows do not postdate `now` both history routes answer with the empty
sequence. -/
theorem days_negative_window (t : List Row) (sym ds : String) (now d : Int)
    (hparse : jsParseInt ds = some d) (hneg : d < 0)
    (hnow : ∀ r ∈ t, r.fecha_registro ≤ now) :
    daysLimit ds = d ∧
    historialRouteServerJs t sym ds now = [] ∧
    historialRouteP5 t sym ds now = [] ∧
    (∀ s2 n, jsParseInt s2 = some n → n ≠ 0 → daysLimit s2 = n) := by
  have hd0 : d ≠ 0 := by omega
  have hd : daysLimit ds = d := by
    unfold daysLimit
    rw [hparse]
    simp [hd0]
  have hW : historialWindow t sym d now = [] := by
    unfold historialWindow
    rw [List.filter_eq_nil_iff]
    intro r hr
    have hrn := hnow r hr
    have hdp : d * secPerDay < 0 :=
      mul_neg_of_neg_of_pos hneg (by norm_num [secPerDay])
    simp only [Bool.and_eq_true, decide_eq_true_eq, beq_iff_eq, not_and]
    intro _
    omega
  have hne : d ≠ 1 := by omega
  refine ⟨hd, ?_, ?_, ?_⟩
  · unfold historialRouteServerJs
    rw [hd, if_neg hne]
    unfold historialMultiDay
    rw [hW]
    rfl
  · unfold historialRouteP5
    rw [hd, hW]
    rfl
  · intro s2 n hp hn
    unfold daysLimit
    rw [hp]
    simp [hn]

/-- Claim C10, witness: the parameter -3 yields the future window and an
empty answer on a one-row store. -/
theorem days_negative_window_witness :
    jsParseInt "-3" = some (-3) ∧ ((-3 : Int) < 0) ∧
    (∀ r ∈ [rowMk 1 "A" 0], r.fecha_registro ≤ (0 : Int)) ∧
    (daysLimit "-3" = -3 ∧
    historialRouteServerJs [rowMk 1 "A" 0] "A" "-3" 0 = [] ∧
    historialRouteP5 [rowMk 1 "A" 0] "A" "-3" 0 = [] ∧
    (∀ s2 n, jsParseInt s2 = some n → n ≠ 0 → daysLimit s2 = n)) :=
  ⟨by decide, by decide, by decide,
    days_negative_window [rowMk 1 "A" 0] "A" "-3" 0 (-3) (by decide)
      (by decide) (by decide)⟩
